import Mathlib

/-!
# Verification of the sbsolver word-validity and scoring engine

This file gives a shallow embedding of the core word logic of the
sbsolver repository (NYT Spelling Bee solver) and proves the testable
properties of its specification against it.

Modelling conventions:
* Python strings are `List Char`; `set(s)` is `List.toFinset`.
* A text file is `Option (List Char)`: `none` when the file does not
  exist, `some content` for its raw character content.  Iterating a
  Python file yields its lines; `pyLines` reproduces that splitting
  (each yielded line keeps its text but not the terminating newline,
  which `pyStrip`, the model of `str.strip`, would remove anyway).
* The SQLite words database is a `Finset` of words plus a `Finset` of
  (word, definition) pairs, matching the UNIQUE constraints of its
  schema; `INSERT OR IGNORE` is set union.
* Python `letters[0]` is `List.headI`; the solver only ever calls it on
  the 7 puzzle letters, so theorems carry a nonemptiness hypothesis
  where that access matters.
-/

namespace SBSolver

/-- The whitespace characters removed by Python's `str.strip()`
(ASCII fragment, which is all the corpus files contain). -/
def isPySpace (c : Char) : Bool :=
  c = ' ' || c = '\t' || c = '\n' || c = '\r' || c = '\x0b' || c = '\x0c'

/-- Python `str.strip()`: drop leading and trailing whitespace. -/
def pyStrip (w : List Char) : List Char :=
  ((w.dropWhile isPySpace).reverse.dropWhile isPySpace).reverse

/-- Python `str.lower()` (ASCII fragment). -/
def pyLower (w : List Char) : List Char :=
  w.map Char.toLower

/-- The lines obtained by iterating a Python file with raw content
`content`, each without its terminating newline: `"a\nb\n"` yields
`["a", "b"]`, `"a\nb"` yields `["a", "b"]`, `""` yields `[]`.
`acc` holds the reversed characters of the line being scanned. -/
def pyLinesAux : List Char → List Char → List (List Char)
  | acc, [] => if acc.isEmpty then [] else [acc.reverse]
  | acc, c :: rest =>
    if c = '\n' then acc.reverse :: pyLinesAux [] rest
    else pyLinesAux (c :: acc) rest

/-- Line splitting of a whole file content. -/
def pyLines (content : List Char) : List (List Char) :=
  pyLinesAux [] content

/-- `word_logic.is_pangram`:
`return len(set(word)) == 7`. -/
def is_pangram (word : List Char) : Bool :=
  word.toFinset.card == 7

/-- `word_logic.score`:
`points = 1 if len(word) == 4 else len(word)` then
`points += 7 if is_pangram(word) else 0`. -/
def score (word : List Char) : Nat :=
  let points := if word.length == 4 then 1 else word.length
  points + (if is_pangram word then 7 else 0)

/-- `sbsolver.score(word, letters)`: same base, but the pangram test is
`set(word) == set(letters)`. -/
def sb_score (word letters : List Char) : Nat :=
  let points := if word.length == 4 then 1 else word.length
  points + (if word.toFinset == letters.toFinset then 7 else 0)

/-- `core/word.py` `Word`: text plus eagerly computed pangram flag and
score, and attached definitions. -/
structure Word where
  text : List Char
  definitions : List (List Char)
  is_pangram : Bool
  score : Nat

/-- `Word.calculate_score`: `base_score = 1 if len(self.text) == 4 else
len(self.text)`; `pangram_bonus = 7 if self.is_pangram else 0`. -/
def Word.calculate_score (w : Word) : Nat :=
  (if w.text.length == 4 then 1 else w.text.length) +
    (if w.is_pangram then 7 else 0)

/-- `Word.__init__(word, definitions)`: lowercase the text, derive
`is_pangram = (len(set(text)) == 7)` and the cached score. -/
def Word.ofText (word : List Char) (definitions : List (List Char)) : Word :=
  let text := pyLower word
  let pangram : Bool := text.toFinset.card == 7
  { text := text
    definitions := definitions
    is_pangram := pangram
    score :=
      (if text.length == 4 then 1 else text.length) +
        (if pangram then 7 else 0) }

/-- The two on-disk corpus files of `word_logic.py`:
`WORDLIST_FILE` and `ADDENDUM_FILE`, each possibly missing. -/
structure CorpusFiles where
  wordlist : Option (List Char)
  addendum : Option (List Char)

/-- `word_logic.words_from(word_file)`: the set of stripped lines when
the file exists, the empty set otherwise. -/
def words_from (file : Option (List Char)) : Finset (List Char) :=
  match file with
  | none => ∅
  | some content => ((pyLines content).map pyStrip).toFinset

/-- The effective corpus: union of the word sets of both files, as
accumulated by the loop in `word_logic.word_list`. -/
def effectiveCorpus (files : CorpusFiles) : Finset (List Char) :=
  words_from files.wordlist ∪ words_from files.addendum

/-- `word_logic.word_list()`: `sorted` of the union of both files'
word sets (ascending lexicographic order). -/
def word_list (files : CorpusFiles) : List (List Char) :=
  (effectiveCorpus files).sort (· ≤ ·)

/-- `word_logic.find_words(letters)`: filter the sorted corpus by the
three comprehension conditions, in source order. -/
def find_words (files : CorpusFiles) (letters : List Char) : List (List Char) :=
  let words := word_list files
  let letter_set := letters.toFinset
  let center_letter := letters.headI
  words.filter fun word =>
    decide (word.toFinset ⊆ letter_set) &&
      decide (center_letter ∈ word) &&
      decide (4 ≤ word.length)

/-- `sbsolver.find_words(letters)`: same filter, but over the stripped
lines of `WORDLIST_FILE` in file order (the file must exist). -/
def sb_find_words (wordlist : List Char) (letters : List Char) : List (List Char) :=
  let letter_set := letters.toFinset
  let center_letter := letters.headI
  ((pyLines wordlist).map pyStrip).filter fun word =>
    decide (word.toFinset ⊆ letter_set) &&
      decide (center_letter ∈ word) &&
      decide (4 ≤ word.length)

/-- `word_logic.update_word_list(words)`: open `ADDENDUM_FILE` in
append mode (creating it when missing) and write `f"{word}\n"` for each
word; the result is the new file content. -/
def update_word_list (words : List (List Char)) (addendum : Option (List Char)) :
    List Char :=
  addendum.getD [] ++ (words.map (· ++ ['\n'])).flatten

/-- The SQLite words database (`create_db` in `core/utils.py`): a words
table whose `word` column is UNIQUE, and a definitions table with a
UNIQUE (word, definition) association.  The metadata table (creation
timestamp and bootstrap word count) carries no corpus membership and is
outside the model. -/
structure WordsDB where
  words : Finset (List Char)
  defs : Finset (List Char × List Char)

/-- `core/utils.py` `populate_db(word_list)`:
`INSERT OR IGNORE INTO words (word) VALUES (?)` for every token of the
fetched word list.  On a UNIQUE column, `INSERT OR IGNORE` is set
union. -/
def populate_db (db : WordsDB) (word_list : List (List Char)) : WordsDB :=
  { db with words := db.words ∪ word_list.toFinset }

/-- `core/definitions.py` `save_definitions(words)`: `INSERT OR IGNORE`
every word text into the words table, then `INSERT OR IGNORE` every
(word, definition) pair into the definitions table. -/
def save_definitions (db : WordsDB) (ws : List Word) : WordsDB :=
  { words := db.words ∪ (ws.map Word.text).toFinset
    defs := db.defs ∪
      (ws.flatMap fun w => w.definitions.map fun d => (w.text, d)).toFinset }

/-- Modelled from the spec: the driver that reconciles found words with
the official answers is not among the provided source files (only the
corpus-update operation `update_word_list` that it feeds is present).
§4.5 specifies
`missing = {a.text for a in officialAnswers} − {f.text for f in foundWords}`. -/
def reconcile (found official : Finset (List Char)) : Finset (List Char) :=
  official \ found

/-- The invariant of the addendum file: empty or newline-terminated.
A fresh file is empty and `update_word_list` only appends
newline-terminated blocks, so every reachable file content satisfies
it. -/
def nlTerminated (c : List Char) : Prop :=
  c = [] ∨ c.getLast? = some '\n'

instance nlTerminated.decidable (c : List Char) : Decidable (nlTerminated c) :=
  inferInstanceAs (Decidable (c = [] ∨ c.getLast? = some '\n'))

/-! ## Helper lemmas about line splitting -/

theorem pyLinesAux_nil (acc : List Char) :
    pyLinesAux acc [] = if acc.isEmpty then [] else [acc.reverse] :=
  rfl

theorem pyLinesAux_cons (acc : List Char) (c : Char) (rest : List Char) :
    pyLinesAux acc (c :: rest) =
      if c = '\n' then acc.reverse :: pyLinesAux [] rest
      else pyLinesAux (c :: acc) rest :=
  rfl

theorem pyLinesAux_append {c : List Char} (h : c.getLast? = some '\n') :
    ∀ acc d, pyLinesAux acc (c ++ d) = pyLinesAux acc c ++ pyLinesAux [] d := by
  induction c with
  | nil => simp at h
  | cons x c ih =>
    intro acc d
    cases c with
    | nil =>
      simp only [List.getLast?_singleton, Option.some.injEq] at h
      subst h
      rw [List.singleton_append, pyLinesAux_cons, pyLinesAux_cons]
      simp [pyLinesAux_nil]
    | cons y c2 =>
      have h2 : (y :: c2).getLast? = some '\n' := by
        rwa [List.getLast?_cons_cons] at h
      rw [List.cons_append, pyLinesAux_cons, pyLinesAux_cons]
      by_cases hx : x = '\n'
      · rw [if_pos hx, if_pos hx, ih h2 [] d, List.cons_append]
      · rw [if_neg hx, if_neg hx, ih h2 (x :: acc) d]

theorem pyLines_append {c : List Char} (h : nlTerminated c) (d : List Char) :
    pyLines (c ++ d) = pyLines c ++ pyLines d := by
  rcases h with h | h
  · subst h
    simp [pyLines, pyLinesAux_nil]
  · exact pyLinesAux_append h [] d

theorem nlTerminated_append {a b : List Char}
    (ha : nlTerminated a) (hb : nlTerminated b) : nlTerminated (a ++ b) := by
  rcases hb with hb | hb
  · subst hb
    simpa using ha
  · right
    have hne : b ≠ [] := by
      intro hnil
      subst hnil
      simp at hb
    rw [List.getLast?_append_of_ne_nil _ hne]
    exact hb

theorem nlTerminated_block (ws : List (List Char)) :
    nlTerminated ((ws.map (· ++ ['\n'])).flatten) := by
  induction ws with
  | nil => left; rfl
  | cons w ws ih =>
    rw [List.map_cons, List.flatten_cons]
    refine nlTerminated_append ?_ ih
    right
    rw [List.getLast?_concat]

theorem words_from_append {c : List Char} (h : nlTerminated c) (d : List Char) :
    words_from (some (c ++ d)) = words_from (some c) ∪ words_from (some d) := by
  simp [words_from, pyLines_append h d]

theorem words_from_getD (file : Option (List Char)) :
    words_from file = words_from (some (file.getD [])) := by
  cases file with
  | none => simp [words_from, pyLines, pyLinesAux_nil]
  | some c => rfl

theorem pyLinesAux_no_newline {w : List Char} (h : '\n' ∉ w) :
    ∀ acc, pyLinesAux acc (w ++ ['\n']) = [acc.reverse ++ w] := by
  induction w with
  | nil => intro acc; simp [pyLinesAux, pyLinesAux_nil]
  | cons x w ih =>
    intro acc
    have hx : x ≠ '\n' := fun hxe => h (hxe ▸ List.mem_cons_self x w)
    have hw : '\n' ∉ w := fun hm => h (List.mem_cons_of_mem x hm)
    rw [List.cons_append]
    show pyLinesAux acc (x :: (w ++ ['\n'])) = _
    rw [pyLinesAux, if_neg hx, ih hw]
    simp

theorem pyLines_single_word {w : List Char} (h : '\n' ∉ w) :
    pyLines (w ++ ['\n']) = [w] := by
  simpa using pyLinesAux_no_newline h []

theorem pyStrip_of_no_space {w : List Char}
    (h : ∀ ch ∈ w, isPySpace ch = false) : pyStrip w = w := by
  have hdrop : ∀ v : List Char, (∀ ch ∈ v, isPySpace ch = false) →
      v.dropWhile isPySpace = v := by
    intro v hv
    cases v with
    | nil => rfl
    | cons x v => simp [List.dropWhile_cons, hv x (List.mem_cons_self x v)]
  unfold pyStrip
  rw [hdrop w h, hdrop w.reverse fun ch hc => h ch (List.mem_reverse.mp hc),
    List.reverse_reverse]

/-! ## Claim theorems -/

/-- C1: for every word of length at least 4, a non-pangram of length
exactly 4 scores 1; a non-pangram of length above 4 scores its length;
and a pangram scores its base (1 for length 4, else the length)
plus 7. -/
theorem score_spec (w : List Char) (h4 : 4 ≤ w.length) :
    (w.length = 4 → is_pangram w = false → score w = 1) ∧
    (4 < w.length → is_pangram w = false → score w = w.length) ∧
    (is_pangram w = true →
      score w = (if w.length = 4 then 1 else w.length) + 7) := by
  refine ⟨?_, ?_, ?_⟩
  · intro hl hp
    simp [score, hl, hp]
  · intro hl hp
    have hne : w.length ≠ 4 := by omega
    simp [score, hne, hp]
  · intro hp
    simp [score, hp]

theorem score_spec_witness :
    score ('g' :: 'n' :: 'a' :: 't' :: []) = 1 ∧
    score ('t' :: 'a' :: 'n' :: 'g' :: 'y' :: []) = 5 ∧
    score ('g' :: 'r' :: 'a' :: 'n' :: 't' :: 'l' :: 'y' :: []) = 14 := by
  refine ⟨?_, ?_, ?_⟩
  · exact (score_spec ('g' :: 'n' :: 'a' :: 't' :: []) (by decide)).1
      (by decide) (by decide)
  · exact (score_spec ('t' :: 'a' :: 'n' :: 'g' :: 'y' :: [])
      (by decide)).2.1 (by decide) (by decide)
  · have h := (score_spec ('g' :: 'r' :: 'a' :: 'n' :: 't' :: 'l' :: 'y' :: [])
      (by decide)).2.2 (by decide)
    simpa using h

/-- C3: `is_pangram` holds exactly when the word has exactly 7 distinct
characters. -/
theorem is_pangram_iff (w : List Char) :
    is_pangram w = true ↔ w.toFinset.card = 7 := by
  simp [is_pangram]

/-- C9: on any word drawn from the 7 distinct puzzle letters, the
`sbsolver.py` score (pangram test `set(word) == set(letters)`) agrees
with the `word_logic.py` score (pangram test `len(set(word)) == 7`). -/
theorem score_agree (word letters : List Char)
    (h7 : letters.toFinset.card = 7)
    (hsub : ∀ c ∈ word, c ∈ letters) :
    sb_score word letters = score word := by
  have hs : word.toFinset ⊆ letters.toFinset := fun c hc =>
    List.mem_toFinset.mpr (hsub c (List.mem_toFinset.mp hc))
  by_cases hp : word.toFinset = letters.toFinset
  · have hcard : word.toFinset.card = 7 := by rw [hp, h7]
    simp [sb_score, score, is_pangram, hp, hcard, h7]
  · have hcard : word.toFinset.card ≠ 7 := by
      intro hc
      exact hp (Finset.eq_of_subset_of_card_le hs (by omega))
    simp [sb_score, score, is_pangram, hp, hcard]

theorem score_agree_witness :
    sb_score ('g' :: 'r' :: 'a' :: 'n' :: 't' :: 'l' :: 'y' :: [])
        ('a' :: 'l' :: 'g' :: 'r' :: 'n' :: 't' :: 'y' :: []) =
      score ('g' :: 'r' :: 'a' :: 'n' :: 't' :: 'l' :: 'y' :: []) :=
  score_agree ('g' :: 'r' :: 'a' :: 'n' :: 't' :: 'l' :: 'y' :: [])
    ('a' :: 'l' :: 'g' :: 'r' :: 'n' :: 't' :: 'y' :: [])
    (by decide) (by decide)

/-- C10: `find_words` returns a strictly increasing (hence
duplicate-free) list: the corpus is deduplicated as a set and sorted,
and the filter preserves that order. -/
theorem find_words_sorted_nodup (files : CorpusFiles) (letters : List Char) :
    List.Sorted (· < ·) (find_words files letters) ∧
    (find_words files letters).Nodup := by
  have hs : List.Sorted (· < ·) (word_list files) :=
    Finset.sort_sorted_lt _
  have hfind : List.Sorted (· < ·) (find_words files letters) :=
    hs.filter _
  exact ⟨hfind, hfind.nodup⟩

/-- C2: a corpus word is returned by `find_words` iff it has length at
least 4, contains the center letter `letters[0]`, and every one of its
characters is among the puzzle letters. -/
theorem find_words_mem_iff (files : CorpusFiles) (letters : List Char)
    (h7 : letters.Nodup ∧ letters.length = 7) (w : List Char) :
    w ∈ find_words files letters ↔
      w ∈ word_list files ∧ 4 ≤ w.length ∧ letters.headI ∈ w ∧
        ∀ c ∈ w, c ∈ letters := by
  simp only [find_words, List.mem_filter, Bool.and_eq_true, decide_eq_true_eq]
  constructor
  · rintro ⟨hmem, ⟨hsub, hcen⟩, hlen⟩
    exact ⟨hmem, hlen, hcen, fun c hc =>
      List.mem_toFinset.mp (hsub (List.mem_toFinset.mpr hc))⟩
  · rintro ⟨hmem, hlen, hcen, hsub⟩
    exact ⟨hmem, ⟨fun c hc =>
      List.mem_toFinset.mpr (hsub c (List.mem_toFinset.mp hc)), hcen⟩, hlen⟩

theorem find_words_mem_iff_witness :
    "gnarly".toList ∈
      find_words
        ⟨some ("granny\nrangy\ntangy\ngnarly\nlayer\n".toList), none⟩
        ("algrnty".toList) :=
  (find_words_mem_iff
      ⟨some ("granny\nrangy\ntangy\ngnarly\nlayer\n".toList), none⟩
      ("algrnty".toList) ⟨by decide, by decide⟩ ("gnarly".toList)).mpr
    ⟨(Finset.mem_sort (· ≤ ·)).mpr (by decide), by decide, by decide,
      by decide⟩

/-- C6: `find_words` is deterministic and free of hidden inputs: its
result depends only on the puzzle letters and the effective corpus, so
two corpus states with the same word set — in particular two calls on
identical state — give the same result. -/
theorem find_words_deterministic (files1 files2 : CorpusFiles)
    (letters : List Char)
    (h : effectiveCorpus files1 = effectiveCorpus files2) :
    find_words files1 letters = find_words files2 letters := by
  simp only [find_words, word_list, h]

theorem find_words_deterministic_witness :
    find_words ⟨some ("tangy\n".toList), none⟩ ("algrnty".toList) =
      find_words ⟨none, some ("tangy\n".toList)⟩ ("algrnty".toList) :=
  find_words_deterministic ⟨some ("tangy\n".toList), none⟩
    ⟨none, some ("tangy\n".toList)⟩ ("algrnty".toList) (by decide)

/-- C8: on an empty corpus — both corpus files missing, or both
present but empty — `find_words` returns the empty list for every
puzzle (no failure). -/
theorem find_words_empty_corpus (letters : List Char) (h : letters ≠ []) :
    find_words ⟨none, none⟩ letters = [] ∧
    find_words ⟨some [], some []⟩ letters = [] := by
  constructor
  · simp [find_words, word_list, effectiveCorpus, words_from]
  · simp [find_words, word_list, effectiveCorpus, words_from, pyLines,
      pyLinesAux_nil]

theorem find_words_empty_corpus_witness :
    ("algrnty".toList ≠ []) ∧
      find_words ⟨none, none⟩ ("algrnty".toList) = [] :=
  ⟨by decide, (find_words_empty_corpus ("algrnty".toList) (by decide)).1⟩

/-- C4: on a reachable addendum file (empty or newline-terminated, the
invariant `update_word_list` maintains), appending a word set twice
leaves the effective corpus exactly as one append does, and appending
an already-present word leaves the effective corpus unchanged — a
no-op, not an error. -/
theorem addWords_idempotent (files : CorpusFiles) (ws : List (List Char))
    (hinv : nlTerminated (files.addendum.getD [])) :
    effectiveCorpus ⟨files.wordlist,
        some (update_word_list ws
          (some (update_word_list ws files.addendum)))⟩ =
      effectiveCorpus ⟨files.wordlist,
        some (update_word_list ws files.addendum)⟩ ∧
    ∀ w : List Char, (∀ ch ∈ w, isPySpace ch = false) →
      w ∈ effectiveCorpus files →
      effectiveCorpus ⟨files.wordlist,
          some (update_word_list [w] files.addendum)⟩ =
        effectiveCorpus files := by
  have hB := nlTerminated_block ws
  have hCB : nlTerminated
      (files.addendum.getD [] ++ (ws.map (· ++ ['\n'])).flatten) :=
    nlTerminated_append hinv hB
  constructor
  · have e1 : update_word_list ws files.addendum =
        files.addendum.getD [] ++ (ws.map (· ++ ['\n'])).flatten := rfl
    have e2 : update_word_list ws
        (some (update_word_list ws files.addendum)) =
        (files.addendum.getD [] ++ (ws.map (· ++ ['\n'])).flatten) ++
          (ws.map (· ++ ['\n'])).flatten := rfl
    simp only [effectiveCorpus]
    rw [e2, e1, words_from_append hCB, words_from_append hinv]
    congr 1
    rw [Finset.union_assoc, Finset.union_self]
  · intro w hw hmem
    have hnl : '\n' ∉ w := by
      intro hin
      have := hw '\n' hin
      simp [isPySpace] at this
    have e1 : update_word_list [w] files.addendum =
        files.addendum.getD [] ++ (w ++ ['\n']) := by
      simp [update_word_list]
    have e2 : words_from (some (w ++ ['\n'])) = {w} := by
      simp [words_from, pyLines_single_word hnl, pyStrip_of_no_space hw]
    have hmem2 : w ∈ words_from files.wordlist ∪
        words_from (some (files.addendum.getD [])) := by
      rw [← words_from_getD files.addendum]
      exact hmem
    simp only [effectiveCorpus]
    rw [e1, words_from_append hinv, e2, words_from_getD files.addendum,
      ← Finset.union_assoc]
    exact Finset.union_eq_left.mpr (Finset.singleton_subset_iff.mpr hmem2)

theorem addWords_idempotent_witness :
    effectiveCorpus ⟨some ("tangy\n".toList),
        some (update_word_list ["zzq".toList]
          (some (update_word_list ["zzq".toList]
            (some ("abc\n".toList)))))⟩ =
      effectiveCorpus ⟨some ("tangy\n".toList),
        some (update_word_list ["zzq".toList] (some ("abc\n".toList)))⟩ :=
  (addWords_idempotent ⟨some ("tangy\n".toList), some ("abc\n".toList)⟩
    ["zzq".toList] (by decide)).1

/-- C5: `reconcile` returns exactly the official texts absent from the
found words; when every official answer is among the found words the
result is empty. -/
theorem reconcile_spec (found official : Finset (List Char)) :
    (∀ w, w ∈ reconcile found official ↔ w ∈ official ∧ w ∉ found) ∧
    (official ⊆ found → reconcile found official = ∅) := by
  constructor
  · intro w
    simp [reconcile]
  · intro h
    simp [reconcile, Finset.sdiff_eq_empty_iff_subset.mpr h]

theorem reconcile_spec_witness :
    ("zzq".toList ∈
        reconcile {"tangy".toList} {"zzq".toList, "tangy".toList}) ∧
      reconcile {"tangy".toList, "zzq".toList} {"zzq".toList} = ∅ := by
  constructor
  · exact ((reconcile_spec {"tangy".toList}
      {"zzq".toList, "tangy".toList}).1 ("zzq".toList)).mpr
      ⟨by decide, by decide⟩
  · exact (reconcile_spec {"tangy".toList, "zzq".toList}
      {"zzq".toList}).2 (by decide)

/-- C7: the corpus grows monotonically: the addendum append of
`update_word_list` (on a reachable file state), the bootstrap insert of
`populate_db`, and the word insert of `save_definitions` each preserve
every word already present — words are only ever added. -/
theorem corpus_monotone :
    (∀ (addendum : Option (List Char)) (ws : List (List Char)),
        nlTerminated (addendum.getD []) →
        words_from addendum ⊆
          words_from (some (update_word_list ws addendum))) ∧
    (∀ (db : WordsDB) (wl : List (List Char)),
        db.words ⊆ (populate_db db wl).words) ∧
    (∀ (db : WordsDB) (ws : List Word),
        db.words ⊆ (save_definitions db ws).words) := by
  refine ⟨?_, ?_, ?_⟩
  · intro addendum ws hinv
    have e1 : update_word_list ws addendum =
        addendum.getD [] ++ (ws.map (· ++ ['\n'])).flatten := rfl
    rw [e1, words_from_append hinv, words_from_getD addendum]
    exact Finset.subset_union_left
  · intro db wl
    exact Finset.subset_union_left
  · intro db ws
    exact Finset.subset_union_left

theorem corpus_monotone_witness :
    words_from (some ("abc\n".toList)) ⊆
      words_from
        (some (update_word_list ["zzq".toList] (some ("abc\n".toList)))) :=
  corpus_monotone.1 (some ("abc\n".toList)) ["zzq".toList] (by decide)

end SBSolver
